import Mathlib

/-!
Verification of the claimable-capital cache subsystem of the repository.

The development shallowly embeds the provider
`src/playground/extends/frontend/src/providers/claimable-capital-cache.provider.tsx`
and the batch-fetch coordinator hook in `src/unnamed/part_001`
(`fetchClaimableCapital` / `retryFailedFetches`).

Modelling conventions:
* A JavaScript `Map` is an association list `List (String × ·)` kept in
  insertion order (JS maps iterate in insertion order; `set` of an existing
  key updates in place, `set` of a new key appends at the end).
* `Date.now()` is an explicit `Nat` argument; code that calls `Date.now()`
  repeatedly (one call per loop iteration) receives one time value per call.
* JS subtraction `Date.now() - entry.timestamp` is exact integer
  subtraction, so validity checks are stated over `Int`.
* React state updates (`setCache`, `setLoadingBonds`) do not run their
  updater functions synchronously: the updater is queued and runs when React
  flushes (re-renders).  Reads in the provider go through `cacheRef.current`
  (resp. the rendered `loadingBonds`), which only changes when a queued
  updater actually runs.  The model therefore keeps an applied view plus a
  queue of pending updates, with `flushState` applying the queue.
  Ref-based structures (`inflightRequests`) mutate synchronously.
-/

/-- `CachedRedeemableCapital` from the provider: string-encoded value,
creation timestamp in milliseconds, optional error string. -/
structure CachedRedeemableCapital where
  value : String
  timestamp : Nat
  error : Option String
deriving DecidableEq, Repr

/-- The cache map, in JS-`Map` insertion order. -/
abbrev Cache := List (String × CachedRedeemableCapital)

/-- JS `Map.get`. -/
def mapGet (m : Cache) (k : String) : Option CachedRedeemableCapital :=
  (m.find? (fun p => p.1 == k)).map (fun p => p.2)

/-- JS `Map.has`. -/
def containsKey (m : Cache) (k : String) : Bool :=
  m.any (fun p => p.1 == k)

/-- JS `Map.set`: update in place if the key is present, append otherwise. -/
def mapSet (m : Cache) (k : String) (v : CachedRedeemableCapital) : Cache :=
  if containsKey m k then m.map (fun p => if p.1 == k then (k, v) else p)
  else m ++ [(k, v)]

/-- JS `Map.delete`. -/
def mapDelete (m : Cache) (k : String) : Cache :=
  m.filter (fun p => !(p.1 == k))

/-- `isEntryValid` (provider lines 101-106):
`Date.now() - entry.timestamp < ttl`. -/
def isEntryValid (ttl now : Nat) (e : CachedRedeemableCapital) : Bool :=
  decide ((now : Int) - (e.timestamp : Int) < (ttl : Int))

/-- `getCachedValue` (provider lines 109-118): return the entry only if
present and valid, else `null`; the read never mutates the store. -/
def getCachedValue (ttl now : Nat) (m : Cache) (bondId : String) :
    Option CachedRedeemableCapital :=
  match mapGet m bondId with
  | some e => if isEntryValid ttl now e then some e else none
  | none => none

/-- One step of the eviction scan in `setCachedValue` (provider lines
130-135): keep the earlier candidate unless the current entry is strictly
older. -/
def scanStep (acc : Option String × Nat) (p : String × CachedRedeemableCapital) :
    Option String × Nat :=
  if p.2.timestamp < acc.2 then (some p.1, p.2.timestamp) else acc

/-- The full eviction scan: `oldestKey` starts as `null` and
`oldestTimestamp` starts as `Date.now()`. -/
def oldestScan (now : Nat) (m : Cache) : Option String × Nat :=
  m.foldl scanStep (none, now)

/-- The eviction phase of `setCachedValue` (provider lines 126-139): when
the map already holds at least `maxSize` entries the scan runs, and the
found key is deleted only when it is truthy in JS, i.e. non-null and not
the empty string. -/
def evictIfFull (maxSize now : Nat) (m : Cache) : Cache :=
  if maxSize ≤ m.length then
    match (oldestScan now m).1 with
    | some oldestKey => if oldestKey = "" then m else mapDelete m oldestKey
    | none => m
  else m

/-- `setCachedValue` (provider lines 121-152): run the eviction phase, then
write the new entry with a fresh timestamp. -/
def setCachedValue (maxSize now : Nat) (m : Cache) (bondId value : String)
    (error : Option String) : Cache :=
  mapSet (evictIfFull maxSize now m) bondId ⟨value, now, error⟩

/-- `cleanExpiredEntries` (provider lines 188-199): rebuild the map keeping
exactly the valid entries, and always publish the new map. -/
def cleanExpiredEntries (ttl now : Nat) (m : Cache) : Cache :=
  m.filter (fun p => isEntryValid ttl now p.2)

/-- One tick of the periodic cleanup interval (provider lines 74-98).  The
updater keeps the valid entries; when nothing expired it returns the
previous map object so that no state update is published.  The boolean
records whether a new map was published. -/
def cleanupTick (ttl now : Nat) (m : Cache) : Bool × Cache :=
  if m.any (fun p => !(isEntryValid ttl now p.2)) then
    (true, m.filter (fun p => isEntryValid ttl now p.2))
  else (false, m)

/-- One `setCachedValue` call as data: the arguments plus the value
`Date.now()` returned during that call. -/
structure WriteOp where
  bondId : String
  value : String
  error : Option String
  now : Nat
deriving DecidableEq, Repr

/-- A sequence of `setCachedValue` calls applied in order. -/
def runSets (maxSize : Nat) (ops : List WriteOp) (m : Cache) : Cache :=
  ops.foldl (fun c op => setCachedValue maxSize op.now c op.bondId op.value op.error) m

/-- A queued React state update for the cache map. -/
inductive CacheUpdate where
  | setVal (bondId value : String) (error : Option String) (now : Nat)
  | clearEntry (bondId : String)
deriving DecidableEq, Repr

/-- Running one queued cache updater. -/
def applyUpdate (maxSize : Nat) (c : Cache) : CacheUpdate → Cache
  | CacheUpdate.setVal b v e n => setCachedValue maxSize n c b v e
  | CacheUpdate.clearEntry b => mapDelete c b

/-- Running one queued `setLoadingState` updater on the loading set. -/
def applyLoading (l : List String) (u : String × Bool) : List String :=
  if u.2 then (if l.contains u.1 then l else l ++ [u.1])
  else l.filter (fun x => !(x == u.1))

/-- One result item of `BondService.getClaimablePrincipalForBonds`. -/
structure FetchResult where
  bondId : String
  claimableAmount : String
  error : Option String
deriving DecidableEq, Repr

/-- Provider + coordinator state.
`cacheApplied` is `cacheRef.current` (what reads observe now);
`pendingCache` are the queued `setCache` updaters not yet flushed;
`loadingApplied` / `pendingLoading` model `loadingBonds` the same way;
`inflight` is the key set of the `inflightRequests` ref map (mutated
synchronously); `calls` logs each batched `fetchFn` invocation issued. -/
structure ProviderState where
  cacheApplied : Cache
  pendingCache : List CacheUpdate
  loadingApplied : List String
  pendingLoading : List (String × Bool)
  inflight : List String
  calls : List (List String)
deriving DecidableEq, Repr

/-- A React flush: run all queued updaters, in order. -/
def flushState (maxSize : Nat) (s : ProviderState) : ProviderState :=
  { s with
    cacheApplied := s.pendingCache.foldl (applyUpdate maxSize) s.cacheApplied
    pendingCache := []
    loadingApplied := s.pendingLoading.foldl applyLoading s.loadingApplied
    pendingLoading := [] }

/-- `hasCachedValue` (provider lines 155-160): `getCachedValue !== null`. -/
def hasCachedValueB (ttl now : Nat) (m : Cache) (bondId : String) : Bool :=
  (getCachedValue ttl now m bondId).isSome

/-- `assetsNeedingFetch` (`part_001` lines 114-116): the requested keys
that are neither cached (valid) nor already in flight. -/
def assetsNeedingFetch (ttl now : Nat) (assets : List String)
    (s : ProviderState) : List String :=
  assets.filter (fun id =>
    !(hasCachedValueB ttl now s.cacheApplied id) && !(s.inflight.contains id))

/-- The synchronous part of `fetchClaimableCapital` (`part_001` lines
112-156), up to and including the `fetchFn` issue and the in-flight
registration, before the first `await`: partition the requested keys,
return unchanged when nothing needs fetching, otherwise queue the loading
flags, issue one batched call and register every fetched key in-flight. -/
def fetchStart (ttl now : Nat) (assets : List String) (s : ProviderState) :
    ProviderState :=
  if (assetsNeedingFetch ttl now assets s).isEmpty then s
  else
    { s with
      pendingLoading := s.pendingLoading ++
        (assetsNeedingFetch ttl now assets s).map (fun id => (id, true))
      calls := s.calls ++ [assetsNeedingFetch ttl now assets s]
      inflight := (assetsNeedingFetch ttl now assets s).foldl
        (fun l id => if l.contains id then l else l ++ [id]) s.inflight }

/-- The continuation of `fetchClaimableCapital` after the awaited batch
settles (`part_001` lines 158-176), plus the `promise.finally` cleanup of
`setInflightRequest` (provider lines 226-235).  `idsTimes` pairs each key
of the issued batch with the `Date.now()` observed when its failure entry
would be written; a success outcome carries one observed time per result.
On success every result is cached; on rejection every batch key gets the
normalized failure entry; in both cases the loading flags are cleared and
the in-flight markers removed. -/
def fetchSettleTurn (idsTimes : List (String × Nat))
    (outcome : Except String (List (FetchResult × Nat))) (s : ProviderState) :
    ProviderState :=
  let s1 :=
    match outcome with
    | Except.ok results =>
        { s with pendingCache := s.pendingCache ++
            results.map (fun (r : FetchResult × Nat) =>
              CacheUpdate.setVal r.1.bondId r.1.claimableAmount r.1.error r.2) }
    | Except.error _ =>
        { s with pendingCache := s.pendingCache ++
            idsTimes.map (fun (it : String × Nat) =>
              CacheUpdate.setVal it.1 "0" (some "Failed to load") it.2) }
  { s1 with
    pendingLoading := s1.pendingLoading ++ idsTimes.map (fun (it : String × Nat) => (it.1, false))
    inflight := s1.inflight.filter (fun x => !(idsTimes.any (fun (it : String × Nat) => it.1 == x))) }

/-- The whole settling phase of `fetchClaimableCapital` viewed as a
fallible computation: the `try`/`catch` absorbs a rejected batch, so the
function always returns normally. -/
def fetchMissingSettle (idsTimes : List (String × Nat))
    (outcome : Except String (List (FetchResult × Nat))) (s : ProviderState) :
    Except String ProviderState :=
  Except.ok (fetchSettleTurn idsTimes outcome s)

/-- `clearCacheEntry` (provider lines 172-185): queue deletion of the entry
and clearing of its loading flag; the in-flight map is not touched. -/
def clearCacheEntryOp (bondId : String) (s : ProviderState) : ProviderState :=
  { s with
    pendingCache := s.pendingCache ++ [CacheUpdate.clearEntry bondId]
    pendingLoading := s.pendingLoading ++ [(bondId, false)] }

/-- `retryFailedFetches` (`part_001` lines 190-198): select the matching
assets, clear their cache entries, then immediately re-run
`fetchClaimableCapital` on them — all within one synchronous turn, so the
clears are still queued when the re-fetch reads the cache. -/
def retryFailedFetches (ttl now : Nat) (assetIds : List String)
    (data : List String) (s : ProviderState) : ProviderState :=
  let assetsToRetry := data.filter (fun id => assetIds.contains id)
  let s1 := assetIds.foldl (fun st id => clearCacheEntryOp id st) s
  fetchStart ttl now assetsToRetry s1

/-- Number of issued batched `fetchFn` calls that contain the key. -/
def numCalls (s : ProviderState) (k : String) : Nat :=
  (s.calls.filter (fun b => b.contains k)).length

/-- Keys of the cache map are pairwise distinct (a JS `Map` invariant). -/
abbrev nodupKeys (m : Cache) : Prop :=
  (m.map Prod.fst).Nodup

/-! ## Basic lemmas about the JS-map model -/

theorem find?_map_replace (k k2 : String) (v : CachedRedeemableCapital)
    (hne : k2 ≠ k) (m : Cache) :
    (m.map (fun p => if p.1 == k then (k, v) else p)).find? (fun p => p.1 == k2) =
      m.find? (fun p => p.1 == k2) := by
  induction m with
  | nil => simp
  | cons p rest ih =>
    by_cases hpk : (p.1 == k) = true
    · have hp1 : p.1 = k := by simpa using hpk
      have h1 : (((k, v) : String × CachedRedeemableCapital).1 == k2) = false :=
        beq_false_of_ne (fun h => hne h.symm)
      have h2 : (p.1 == k2) = false := by
        rw [hp1]; exact beq_false_of_ne (fun h => hne h.symm)
      rw [List.map_cons, if_pos hpk, List.find?_cons_of_neg, List.find?_cons_of_neg]
      · exact ih
      · simp [h2]
      · simp [h1]
    · rw [List.map_cons, if_neg hpk]
      by_cases hpk2 : (p.1 == k2) = true
      · rw [List.find?_cons_of_pos, List.find?_cons_of_pos] <;> simp [hpk2]
      · rw [List.find?_cons_of_neg, List.find?_cons_of_neg]
        · exact ih
        · simp [hpk2]
        · simp [hpk2]

theorem find?_map_replace_self (k : String) (v : CachedRedeemableCapital) :
    ∀ m : Cache, containsKey m k = true →
      (m.map (fun p => if p.1 == k then (k, v) else p)).find? (fun p => p.1 == k) =
        some (k, v) := by
  intro m
  induction m with
  | nil => intro h; simp [containsKey] at h
  | cons p rest ih =>
    intro h
    by_cases hpk : (p.1 == k) = true
    · rw [List.map_cons, if_pos hpk, List.find?_cons_of_pos]
      simp
    · rw [List.map_cons, if_neg hpk, List.find?_cons_of_neg]
      · apply ih
        unfold containsKey at h ⊢
        rw [List.any_cons] at h
        simpa [hpk] using h
      · simp [hpk]

theorem find?_none_of_not_contains (m : Cache) (k : String)
    (h : containsKey m k = false) : (m.find? fun p => p.1 == k) = none := by
  rw [List.find?_eq_none]
  intro p hp hc
  unfold containsKey at h
  have : m.any (fun p => p.1 == k) = true := List.any_eq_true.mpr ⟨p, hp, hc⟩
  rw [h] at this
  exact Bool.false_ne_true this

theorem mapGet_mapSet_self (m : Cache) (k : String) (v : CachedRedeemableCapital) :
    mapGet (mapSet m k v) k = some v := by
  unfold mapSet mapGet
  by_cases h : containsKey m k = true
  · rw [if_pos h, find?_map_replace_self k v m h]
    rfl
  · rw [if_neg h, List.find?_append, find?_none_of_not_contains m k (by simpa using h)]
    simp

theorem mapGet_mapSet_ne (m : Cache) (k k2 : String) (v : CachedRedeemableCapital)
    (hne : k2 ≠ k) : mapGet (mapSet m k v) k2 = mapGet m k2 := by
  unfold mapSet mapGet
  by_cases h : containsKey m k = true
  · rw [if_pos h, find?_map_replace k k2 v hne]
  · rw [if_neg h, List.find?_append]
    have : ([(k, v)].find? fun p => p.1 == k2) = none := by
      simp [List.find?, beq_false_of_ne (fun hh : k = k2 => hne hh.symm)]
    rw [this]
    cases m.find? fun p => p.1 == k2 <;> simp

theorem mapGet_mapDelete_ne (m : Cache) (k k2 : String) (hne : k2 ≠ k) :
    mapGet (mapDelete m k) k2 = mapGet m k2 := by
  unfold mapDelete mapGet
  induction m with
  | nil => simp
  | cons p rest ih =>
    by_cases hpk : (p.1 == k) = true
    · have hp1 : p.1 = k := by simpa using hpk
      have hp2 : (p.1 == k2) = false := by
        rw [hp1]; exact beq_false_of_ne (fun h => hne h.symm)
      rw [List.filter_cons_of_neg, List.find?_cons_of_neg]
      · exact ih
      · simp [hp2]
      · simp [hpk]
    · rw [List.filter_cons_of_pos]
      · by_cases hpk2 : (p.1 == k2) = true
        · rw [List.find?_cons_of_pos, List.find?_cons_of_pos] <;> simp [hpk2]
        · rw [List.find?_cons_of_neg, List.find?_cons_of_neg]
          · exact ih
          · simp [hpk2]
          · simp [hpk2]
      · simp [hpk]

theorem mapDelete_subset (m : Cache) (k : String) :
    ∀ p, p ∈ mapDelete m k → p ∈ m := by
  intro p hp
  exact (List.mem_filter.mp hp).1

theorem mapSet_mem (m : Cache) (k : String) (v : CachedRedeemableCapital) :
    ∀ p, p ∈ mapSet m k v → p ∈ m ∨ p = (k, v) := by
  intro p hp
  unfold mapSet at hp
  by_cases hc : containsKey m k = true
  · rw [if_pos hc] at hp
    obtain ⟨q, hq, hqe⟩ := List.mem_map.mp hp
    by_cases hqk : (q.1 == k) = true
    · rw [if_pos hqk] at hqe
      right; exact hqe.symm
    · rw [if_neg hqk] at hqe
      left; rw [← hqe]; exact hq
  · rw [if_neg hc] at hp
    rcases List.mem_append.mp hp with h1 | h2
    · left; exact h1
    · right; simpa using h2

theorem length_mapSet (m : Cache) (k : String) (v : CachedRedeemableCapital) :
    (mapSet m k v).length = if containsKey m k then m.length else m.length + 1 := by
  unfold mapSet
  by_cases hc : containsKey m k = true <;> simp [hc]

theorem keys_filter_sublist (m : Cache) (f : String × CachedRedeemableCapital → Bool) :
    List.Sublist ((m.filter f).map Prod.fst) (m.map Prod.fst) :=
  (List.filter_sublist m).map Prod.fst

theorem nodupKeys_mapDelete (m : Cache) (k : String) (h : nodupKeys m) :
    nodupKeys (mapDelete m k) :=
  List.Nodup.sublist (keys_filter_sublist m _) h

theorem keys_map_replace (k : String) (v : CachedRedeemableCapital) :
    ∀ m : Cache,
      (m.map (fun p => if p.1 == k then (k, v) else p)).map Prod.fst = m.map Prod.fst := by
  intro m
  induction m with
  | nil => rfl
  | cons p rest ih =>
    by_cases hpk : (p.1 == k) = true
    · have hp1 : p.1 = k := by simpa using hpk
      simp only [List.map_cons, if_pos hpk, ih]
      rw [hp1]
    · simp only [List.map_cons, if_neg hpk, ih]

theorem not_mem_keys_of_not_contains (m : Cache) (k : String)
    (h : containsKey m k = false) : k ∉ m.map Prod.fst := by
  intro hk
  obtain ⟨p, hp, hpe⟩ := List.mem_map.mp hk
  unfold containsKey at h
  have : m.any (fun p => p.1 == k) = true :=
    List.any_eq_true.mpr ⟨p, hp, by simp [hpe]⟩
  rw [h] at this
  exact Bool.false_ne_true this

theorem nodupKeys_mapSet (m : Cache) (k : String) (v : CachedRedeemableCapital)
    (h : nodupKeys m) : nodupKeys (mapSet m k v) := by
  unfold mapSet
  by_cases hc : containsKey m k = true
  · rw [if_pos hc]
    unfold nodupKeys
    rw [keys_map_replace]
    exact h
  · rw [if_neg hc]
    unfold nodupKeys at h ⊢
    rw [List.map_append, List.nodup_append]
    refine ⟨h, by simp, ?_⟩
    intro a ha hb
    simp only [List.map_cons, List.map_nil, List.mem_singleton] at hb
    subst hb
    exact not_mem_keys_of_not_contains m a (by simpa using hc) ha

theorem mapGet_of_mem (m : Cache) (k : String) (e : CachedRedeemableCapital)
    (hnd : nodupKeys m) (hm : (k, e) ∈ m) : mapGet m k = some e := by
  induction m with
  | nil => simp at hm
  | cons p rest ih =>
    have hnd2 : p.1 ∉ rest.map Prod.fst ∧ (rest.map Prod.fst).Nodup := by
      unfold nodupKeys at hnd
      rw [List.map_cons, List.nodup_cons] at hnd
      exact hnd
    rcases List.mem_cons.mp hm with h1 | h2
    · unfold mapGet
      rw [List.find?_cons_of_pos]
      · simp [← h1]
      · rw [← h1]; simp
    · have hk : k ∈ rest.map Prod.fst := List.mem_map.mpr ⟨(k, e), h2, rfl⟩
      have hpk : (p.1 == k) = false := by
        rw [beq_eq_false_iff_ne]
        intro hh
        rw [hh] at hnd2
        exact hnd2.1 hk
      unfold mapGet
      rw [List.find?_cons_of_neg]
      · exact ih hnd2.2 h2
      · simp [hpk]

theorem length_mapDelete_contains (m : Cache) (k : String)
    (hnd : nodupKeys m) (hc : containsKey m k = true) :
    (mapDelete m k).length + 1 = m.length := by
  induction m with
  | nil => simp [containsKey] at hc
  | cons p rest ih =>
    have hnd2 : p.1 ∉ rest.map Prod.fst ∧ (rest.map Prod.fst).Nodup := by
      unfold nodupKeys at hnd
      rw [List.map_cons, List.nodup_cons] at hnd
      exact hnd
    by_cases hpk : (p.1 == k) = true
    · have hp1 : p.1 = k := by simpa using hpk
      have hrest : rest.filter (fun q => !(q.1 == k)) = rest := by
        rw [List.filter_eq_self]
        intro q hq
        have hqk : q.1 ≠ k := by
          intro hh
          apply hnd2.1
          rw [hp1, ← hh]
          exact List.mem_map.mpr ⟨q, hq, rfl⟩
        simp [hqk]
      unfold mapDelete
      rw [List.filter_cons_of_neg]
      · rw [hrest]
        simp
      · simp [hpk]
    · have hcrest : containsKey rest k = true := by
        unfold containsKey at hc
        rw [List.any_cons] at hc
        rcases Bool.or_eq_true_iff.mp hc with h | h
        · exact absurd h hpk
        · exact h
      unfold mapDelete
      rw [List.filter_cons_of_pos]
      · have h2 := ih hnd2.2 hcrest
        unfold mapDelete at h2
        simp only [List.length_cons]
        omega
      · simp [hpk]

/-! ## The eviction scan: characterization -/

/-- The first-encountered entry with globally minimal timestamp. -/
def firstMinEntry : Cache → Option (String × CachedRedeemableCapital)
  | [] => none
  | p :: rest =>
    match firstMinEntry rest with
    | none => some p
    | some q => if q.2.timestamp < p.2.timestamp then some q else some p

theorem firstMinEntry_nil_iff (m : Cache) : firstMinEntry m = none ↔ m = [] := by
  cases m with
  | nil => simp [firstMinEntry]
  | cons p rest =>
    simp only [firstMinEntry]
    cases firstMinEntry rest with
    | none => simp
    | some q =>
      by_cases h : q.2.timestamp < p.2.timestamp <;> simp [h]

theorem firstMinEntry_mem (m : Cache) (q : String × CachedRedeemableCapital)
    (h : firstMinEntry m = some q) : q ∈ m := by
  induction m with
  | nil => simp [firstMinEntry] at h
  | cons p rest ih =>
    simp only [firstMinEntry] at h
    cases hrest : firstMinEntry rest with
    | none =>
      rw [hrest] at h
      simp at h
      simp [h]
    | some q2 =>
      rw [hrest] at h
      have h : (if q2.2.timestamp < p.2.timestamp then some q2 else some p) = some q := h
      by_cases hlt : q2.2.timestamp < p.2.timestamp
      · rw [if_pos hlt] at h
        have : q2 = q := by simpa using h
        subst this
        exact List.mem_cons_of_mem p (ih hrest)
      · rw [if_neg hlt] at h
        have : p = q := by simpa using h
        subst this
        exact List.mem_cons_self p rest

theorem firstMinEntry_le (m : Cache) :
    ∀ q : String × CachedRedeemableCapital, firstMinEntry m = some q →
      ∀ p ∈ m, q.2.timestamp ≤ p.2.timestamp := by
  induction m with
  | nil => intro q h; simp [firstMinEntry] at h
  | cons p rest ih =>
    intro q h r hr
    simp only [firstMinEntry] at h
    cases hrest : firstMinEntry rest with
    | none =>
      have hnil : rest = [] := (firstMinEntry_nil_iff rest).mp hrest
      rw [hrest] at h
      simp at h
      subst hnil
      rcases List.mem_cons.mp hr with h1 | h2
      · rw [← h, h1]
      · simp at h2
    | some q2 =>
      rw [hrest] at h
      have h : (if q2.2.timestamp < p.2.timestamp then some q2 else some p) = some q := h
      by_cases hlt : q2.2.timestamp < p.2.timestamp
      · rw [if_pos hlt] at h
        have hq : q2 = q := by simpa using h
        subst hq
        rcases List.mem_cons.mp hr with h1 | h2
        · rw [h1]; exact le_of_lt hlt
        · exact ih q2 hrest r h2
      · rw [if_neg hlt] at h
        have hq : p = q := by simpa using h
        subst hq
        rcases List.mem_cons.mp hr with h1 | h2
        · rw [h1]
        · exact le_trans (not_lt.mp hlt) (ih q2 hrest r h2)

theorem firstMinEntry_decomp (m : Cache) (q : String × CachedRedeemableCapital)
    (h : firstMinEntry m = some q) :
    ∃ l1 l2, m = l1 ++ q :: l2 ∧ ∀ p ∈ l1, q.2.timestamp < p.2.timestamp := by
  induction m with
  | nil => simp [firstMinEntry] at h
  | cons p rest ih =>
    simp only [firstMinEntry] at h
    cases hrest : firstMinEntry rest with
    | none =>
      rw [hrest] at h
      have : p = q := by simpa using h
      subst this
      exact ⟨[], rest, rfl, by simp⟩
    | some q2 =>
      rw [hrest] at h
      have h : (if q2.2.timestamp < p.2.timestamp then some q2 else some p) = some q := h
      by_cases hlt : q2.2.timestamp < p.2.timestamp
      · rw [if_pos hlt] at h
        have hq : q2 = q := by simpa using h
        subst hq
        obtain ⟨l1, l2, heq, hgt⟩ := ih hrest
        refine ⟨p :: l1, l2, by rw [heq]; rfl, ?_⟩
        intro r hr
        rcases List.mem_cons.mp hr with h1 | h2
        · rw [h1]; exact hlt
        · exact hgt r h2
      · rw [if_neg hlt] at h
        have hq : p = q := by simpa using h
        subst hq
        exact ⟨[], rest, rfl, by simp⟩

theorem scan_high (m : Cache) :
    ∀ acc : Option String × Nat,
      (∀ p ∈ m, acc.2 ≤ p.2.timestamp) → m.foldl scanStep acc = acc := by
  induction m with
  | nil => intro acc _; rfl
  | cons p rest ih =>
    intro acc hall
    rw [List.foldl_cons]
    have hstep : scanStep acc p = acc := by
      unfold scanStep
      rw [if_neg]
      exact not_lt.mpr (hall p (List.mem_cons_self p rest))
    rw [hstep]
    exact ih acc (fun r hr => hall r (List.mem_cons_of_mem p hr))

theorem scan_min (m : Cache) :
    ∀ (acc : Option String × Nat) (q : String × CachedRedeemableCapital),
      firstMinEntry m = some q → q.2.timestamp < acc.2 →
      m.foldl scanStep acc = (some q.1, q.2.timestamp) := by
  induction m with
  | nil => intro acc q h _; simp [firstMinEntry] at h
  | cons p rest ih =>
    intro acc q h hq
    simp only [firstMinEntry] at h
    rw [List.foldl_cons]
    cases hrest : firstMinEntry rest with
    | none =>
      have hnil : rest = [] := (firstMinEntry_nil_iff rest).mp hrest
      rw [hrest] at h
      have hpq : p = q := by simpa using h
      subst hpq
      subst hnil
      have hstep : scanStep acc p = (some p.1, p.2.timestamp) := by
        unfold scanStep
        rw [if_pos hq]
      rw [hstep]
      rfl
    | some q2 =>
      rw [hrest] at h
      have h : (if q2.2.timestamp < p.2.timestamp then some q2 else some p) = some q := h
      by_cases hlt : q2.2.timestamp < p.2.timestamp
      · rw [if_pos hlt] at h
        have hqq : q2 = q := by simpa using h
        subst hqq
        by_cases hp : p.2.timestamp < acc.2
        · have hstep : scanStep acc p = (some p.1, p.2.timestamp) := by
            unfold scanStep
            rw [if_pos hp]
          rw [hstep]
          exact ih (some p.1, p.2.timestamp) q2 hrest hlt
        · have hstep : scanStep acc p = acc := by
            unfold scanStep
            rw [if_neg hp]
          rw [hstep]
          exact ih acc q2 hrest hq
      · rw [if_neg hlt] at h
        have hpq : p = q := by simpa using h
        subst hpq
        have hstep : scanStep acc p = (some p.1, p.2.timestamp) := by
          unfold scanStep
          rw [if_pos hq]
        rw [hstep]
        apply scan_high
        intro r hr
        exact le_trans (not_lt.mp hlt) (firstMinEntry_le rest q2 hrest r hr)

theorem scan_cases (m : Cache) :
    ∀ acc : Option String × Nat,
      m.foldl scanStep acc = acc ∨
      ∃ p ∈ m, m.foldl scanStep acc = (some p.1, p.2.timestamp) ∧
        p.2.timestamp < acc.2 := by
  induction m with
  | nil => intro acc; left; rfl
  | cons p rest ih =>
    intro acc
    rw [List.foldl_cons]
    by_cases h : p.2.timestamp < acc.2
    · have hstep : scanStep acc p = (some p.1, p.2.timestamp) := by
        unfold scanStep
        rw [if_pos h]
      rw [hstep]
      rcases ih (some p.1, p.2.timestamp) with h1 | ⟨r, hr, h2, h3⟩
      · right
        exact ⟨p, List.mem_cons_self p rest, h1, h⟩
      · right
        exact ⟨r, List.mem_cons_of_mem p hr, h2, lt_trans h3 h⟩
    · have hstep : scanStep acc p = acc := by
        unfold scanStep
        rw [if_neg h]
      rw [hstep]
      rcases ih acc with h1 | ⟨r, hr, h2, h3⟩
      · left; exact h1
      · right; exact ⟨r, List.mem_cons_of_mem p hr, h2, h3⟩

/-! ## Eviction lemmas -/

theorem containsKey_of_mem (m : Cache) (p : String × CachedRedeemableCapital)
    (hp : p ∈ m) : containsKey m p.1 = true :=
  List.any_eq_true.mpr ⟨p, hp, by simp⟩

theorem evictIfFull_cases (maxSize now : Nat) (m : Cache) :
    evictIfFull maxSize now m = m ∨
    ∃ p, p ∈ m ∧ p.2.timestamp < now ∧ evictIfFull maxSize now m = mapDelete m p.1 := by
  unfold evictIfFull
  by_cases hlen : maxSize ≤ m.length
  · rw [if_pos hlen]
    rcases scan_cases m (none, now) with hs | ⟨p, hp, hs, hlt⟩
    · left
      unfold oldestScan
      rw [hs]
    · unfold oldestScan
      rw [hs]
      by_cases hk : p.1 = ""
      · left; simp [hk]
      · right; exact ⟨p, hp, hlt, by simp [hk]⟩
  · left
    rw [if_neg hlen]

theorem evict_first_min (maxSize now : Nat) (m : Cache)
    (hne : ∀ p ∈ m, p.1 ≠ "")
    (hold : ∃ p ∈ m, p.2.timestamp < now)
    (hlen : maxSize ≤ m.length) :
    ∃ q, firstMinEntry m = some q ∧
      evictIfFull maxSize now m = mapDelete m q.1 := by
  obtain ⟨p0, hp0, hlt0⟩ := hold
  have hmnil : m ≠ [] := by
    intro hh
    rw [hh] at hp0
    simp at hp0
  cases hq : firstMinEntry m with
  | none => exact absurd ((firstMinEntry_nil_iff m).mp hq) hmnil
  | some q =>
    have hqlt : q.2.timestamp < now :=
      lt_of_le_of_lt (firstMinEntry_le m q hq p0 hp0) hlt0
    have hscan : m.foldl scanStep (none, now) = (some q.1, q.2.timestamp) :=
      scan_min m (none, now) q hq hqlt
    have hqmem : q ∈ m := firstMinEntry_mem m q hq
    have hqne : q.1 ≠ "" := hne q hqmem
    refine ⟨q, rfl, ?_⟩
    unfold evictIfFull oldestScan
    rw [if_pos hlen, hscan]
    simp [hqne]

theorem evictIfFull_not_full (maxSize now : Nat) (m : Cache)
    (h : ¬ maxSize ≤ m.length) : evictIfFull maxSize now m = m := by
  unfold evictIfFull
  rw [if_neg h]

theorem setCachedValue_length (maxSize now : Nat) (m : Cache) (k v : String)
    (err : Option String) (hmax : 1 ≤ maxSize) (hnd : nodupKeys m)
    (hne : ∀ p ∈ m, p.1 ≠ "")
    (hts : ∀ p ∈ m, p.2.timestamp < now)
    (hlen : m.length ≤ maxSize) :
    (setCachedValue maxSize now m k v err).length ≤ maxSize := by
  by_cases hfull : maxSize ≤ m.length
  · have hmlen : m.length = maxSize := le_antisymm hlen hfull
    have hmnil : m ≠ [] := by
      intro hh
      rw [hh] at hmlen
      simp at hmlen
      omega
    obtain ⟨p0, hp0⟩ := List.exists_mem_of_ne_nil m hmnil
    obtain ⟨q, hq, hev⟩ :=
      evict_first_min maxSize now m hne ⟨p0, hp0, hts p0 hp0⟩ hfull
    have hqmem : q ∈ m := firstMinEntry_mem m q hq
    have hdel : (mapDelete m q.1).length + 1 = m.length :=
      length_mapDelete_contains m q.1 hnd (containsKey_of_mem m q hqmem)
    unfold setCachedValue
    rw [hev, length_mapSet]
    by_cases hc : containsKey (mapDelete m q.1) k = true <;> simp [hc] <;> omega
  · unfold setCachedValue
    rw [evictIfFull_not_full maxSize now m hfull, length_mapSet]
    by_cases hc : containsKey m k = true <;> simp [hc] <;> omega

theorem setCachedValue_mem (maxSize now : Nat) (m : Cache) (k v : String)
    (err : Option String) :
    ∀ p, p ∈ setCachedValue maxSize now m k v err →
      p ∈ m ∨ p = (k, ⟨v, now, err⟩) := by
  intro p hp
  unfold setCachedValue at hp
  rcases mapSet_mem _ _ _ p hp with h1 | h2
  · rcases evictIfFull_cases maxSize now m with he | ⟨q, _, _, he⟩
    · rw [he] at h1
      left
      exact h1
    · rw [he] at h1
      left
      exact mapDelete_subset _ _ p h1
  · right
    exact h2

theorem nodupKeys_evictIfFull (maxSize now : Nat) (m : Cache) (h : nodupKeys m) :
    nodupKeys (evictIfFull maxSize now m) := by
  rcases evictIfFull_cases maxSize now m with he | ⟨q, _, _, he⟩
  · rw [he]; exact h
  · rw [he]; exact nodupKeys_mapDelete m q.1 h

theorem nodupKeys_setCachedValue (maxSize now : Nat) (m : Cache) (k v : String)
    (err : Option String) (h : nodupKeys m) :
    nodupKeys (setCachedValue maxSize now m k v err) :=
  nodupKeys_mapSet _ k _ (nodupKeys_evictIfFull maxSize now m h)

/-! ## Size bound along a run of `set` calls -/

theorem runSets_length (maxSize : Nat) :
    ∀ (ops : List WriteOp) (m : Cache), 1 ≤ maxSize → nodupKeys m →
      (∀ p ∈ m, p.1 ≠ "") → m.length ≤ maxSize →
      (∀ op ∈ ops, op.bondId ≠ "") →
      (∀ p ∈ m, ∀ op ∈ ops, p.2.timestamp < op.now) →
      ops.Pairwise (fun a b => a.now < b.now) →
      ∀ i, (runSets maxSize (ops.take i) m).length ≤ maxSize := by
  intro ops
  induction ops with
  | nil =>
    intro m hmax hnd hne hlen hops hts hpw i
    simpa [runSets] using hlen
  | cons op rest ih =>
    intro m hmax hnd hne hlen hops hts hpw i
    have hpw2 := List.pairwise_cons.mp hpw
    cases i with
    | zero => simpa [runSets] using hlen
    | succ j =>
      have hop : op ∈ op :: rest := List.mem_cons_self op rest
      have hts1 : ∀ p ∈ m, p.2.timestamp < op.now := fun p hp => hts p hp op hop
      have hkop : op.bondId ≠ "" := hops op hop
      simp only [List.take_succ_cons, runSets, List.foldl_cons]
      have hmem2 := setCachedValue_mem maxSize op.now m op.bondId op.value op.error
      have h2 := ih (setCachedValue maxSize op.now m op.bondId op.value op.error)
        hmax
        (nodupKeys_setCachedValue maxSize op.now m op.bondId op.value op.error hnd)
        (by
          intro p hp
          rcases hmem2 p hp with h1 | h1
          · exact hne p h1
          · rw [h1]; exact hkop)
        (setCachedValue_length maxSize op.now m op.bondId op.value op.error
          hmax hnd hne hts1 hlen)
        (fun o ho => hops o (List.mem_cons_of_mem op ho))
        (by
          intro p hp o ho
          rcases hmem2 p hp with h1 | h1
          · exact hts p h1 o (List.mem_cons_of_mem op ho)
          · rw [h1]; exact hpw2.1 o ho)
        hpw2.2
        j
      simpa [runSets] using h2

/-! ## Claim theorems -/

/-- C1, counterexample.  The claim states that after every `set` call
`entries.size <= maxSize` holds.  Two concrete runs of `setCachedValue`
violate it: (a) with `maxSize = 1`, writing `"A"` and then `"B"` in the same
millisecond leaves two entries, because the eviction scan only picks entries
with `timestamp` strictly below `Date.now()`; (b) with `maxSize = 1`,
writing key `""` and then `"B"` later also leaves two entries, because the
scan result is checked for JS truthiness and the empty-string key is falsy,
so it is never deleted. -/
theorem C1_counterexample :
    ¬ ((setCachedValue 1 10 (setCachedValue 1 10 [] "A" "x" none) "B" "y" none).length ≤ 1) ∧
    ¬ ((setCachedValue 1 10 (setCachedValue 1 5 [] "" "x" none) "B" "y" none).length ≤ 1) := by
  decide

/-- C1, amended.  For every sequence of `set` calls with non-empty keys and
strictly increasing clock readings, `entries.size <= maxSize` holds after
each call (for `maxSize ≥ 1`); and whenever a write arrives with the map at
or above capacity, a strictly older entry present, distinct non-empty keys,
the evicted entry is exactly the first-encountered entry of globally
minimal timestamp, deleted before the insertion. -/
theorem C1_size_bound_amended (maxSize : Nat) (ops : List WriteOp)
    (hmax : 1 ≤ maxSize)
    (hkeys : ∀ op ∈ ops, op.bondId ≠ "")
    (hmono : ops.Pairwise (fun a b => a.now < b.now)) :
    (∀ i, (runSets maxSize (ops.take i) []).length ≤ maxSize) ∧
    (∀ (m : Cache) (now : Nat) (k v : String) (err : Option String),
      nodupKeys m → (∀ p ∈ m, p.1 ≠ "") → (∃ p ∈ m, p.2.timestamp < now) →
      maxSize ≤ m.length →
      ∃ q l1 l2, m = l1 ++ q :: l2 ∧
        (∀ p ∈ l1, q.2.timestamp < p.2.timestamp) ∧
        (∀ p ∈ m, q.2.timestamp ≤ p.2.timestamp) ∧
        setCachedValue maxSize now m k v err =
          mapSet (mapDelete m q.1) k ⟨v, now, err⟩) := by
  constructor
  · intro i
    exact runSets_length maxSize ops [] hmax (by decide) (by decide)
      (by simp) hkeys (by simp) hmono i
  · intro m now k v err hnd hne hold hlen
    obtain ⟨q, hq, hev⟩ := evict_first_min maxSize now m hne hold hlen
    obtain ⟨l1, l2, heq, hgt⟩ := firstMinEntry_decomp m q hq
    refine ⟨q, l1, l2, heq, hgt, firstMinEntry_le m q hq, ?_⟩
    unfold setCachedValue
    rw [hev]

/-- C1, witness for the amended theorem at a concrete run. -/
theorem C1_size_bound_amended_witness :
    (runSets 2 (([⟨"A", "1", none, 10⟩, ⟨"B", "2", none, 20⟩,
      ⟨"C", "3", none, 30⟩] : List WriteOp).take 3) []).length ≤ 2 :=
  (C1_size_bound_amended 2
    [⟨"A", "1", none, 10⟩, ⟨"B", "2", none, 20⟩, ⟨"C", "3", none, 30⟩]
    (by decide) (by decide) (by decide)).1 3

/-- C10, counterexample.  The claim states that a `set` of an
already-present key with the map at capacity always evicts the
globally-oldest entry before the write.  Concretely, with both entries
carrying the current millisecond as timestamp, the scan (strict `<`
against `Date.now()`) selects nothing: the oldest entry `"A"` survives the
refresh of `"X"`. -/
theorem C10_counterexample :
    containsKey [("A", ⟨"1", 10, none⟩), ("X", ⟨"2", 10, none⟩)] "X" = true ∧
    ([("A", ⟨"1", 10, none⟩), ("X", ⟨"2", 10, none⟩)] : Cache).length = 2 ∧
    mapGet (setCachedValue 2 10
        [("A", ⟨"1", 10, none⟩), ("X", ⟨"2", 10, none⟩)] "X" "9" none) "A" =
      some ⟨"1", 10, none⟩ := by
  decide

/-- C10, amended.  If the keys are distinct and non-empty and some entry is
strictly older than the current call's `Date.now()`, then a `set` of an
already-present key with the map at capacity still runs the eviction scan
and deletes the first-encountered globally-oldest entry before the write —
possibly a key different from the one being refreshed. -/
theorem C10_refresh_eviction_amended (maxSize now : Nat) (m : Cache)
    (k v : String) (err : Option String)
    (hnd : nodupKeys m) (hne : ∀ p ∈ m, p.1 ≠ "")
    (hold : ∃ p ∈ m, p.2.timestamp < now)
    (hlen : m.length = maxSize)
    (hmem : containsKey m k = true) :
    ∃ q l1 l2, m = l1 ++ q :: l2 ∧
      (∀ p ∈ l1, q.2.timestamp < p.2.timestamp) ∧
      (∀ p ∈ m, q.2.timestamp ≤ p.2.timestamp) ∧
      setCachedValue maxSize now m k v err =
        mapSet (mapDelete m q.1) k ⟨v, now, err⟩ := by
  obtain ⟨q, hq, hev⟩ := evict_first_min maxSize now m hne hold (le_of_eq hlen.symm)
  obtain ⟨l1, l2, heq, hgt⟩ := firstMinEntry_decomp m q hq
  refine ⟨q, l1, l2, heq, hgt, firstMinEntry_le m q hq, ?_⟩
  unfold setCachedValue
  rw [hev]

/-- C10, witness: refreshing present key `"X"` at capacity evicts the
different, older key `"A"`. -/
theorem C10_refresh_eviction_amended_witness :
    ∃ q l1 l2, ([("A", ⟨"1", 5, none⟩), ("X", ⟨"2", 7, none⟩)] : Cache) = l1 ++ q :: l2 ∧
      (∀ p ∈ l1, q.2.timestamp < p.2.timestamp) ∧
      (∀ p ∈ ([("A", ⟨"1", 5, none⟩), ("X", ⟨"2", 7, none⟩)] : Cache),
        q.2.timestamp ≤ p.2.timestamp) ∧
      setCachedValue 2 10 [("A", ⟨"1", 5, none⟩), ("X", ⟨"2", 7, none⟩)] "X" "9" none =
        mapSet (mapDelete [("A", ⟨"1", 5, none⟩), ("X", ⟨"2", 7, none⟩)] q.1) "X"
          ⟨"9", 10, none⟩ :=
  C10_refresh_eviction_amended 2 10
    [("A", ⟨"1", 5, none⟩), ("X", ⟨"2", 7, none⟩)] "X" "9" none
    (by decide) (by decide) (by decide) (by decide) (by decide)

/-- C3: `get(key)` returns absent as soon as `now - timestamp >= ttl`,
even though the expired entry stays in the store (the read is a pure
lookup and deletes nothing). -/
theorem C3_ttl_expiry (ttl now : Nat) (m : Cache) (k : String)
    (e : CachedRedeemableCapital) (hmem : mapGet m k = some e)
    (hexp : (ttl : Int) ≤ (now : Int) - (e.timestamp : Int)) :
    getCachedValue ttl now m k = none ∧ mapGet m k = some e := by
  refine ⟨?_, hmem⟩
  have hval : isEntryValid ttl now e = false := by
    unfold isEntryValid
    simp only [decide_eq_false_iff_not, not_lt]
    exact hexp
  unfold getCachedValue
  rw [hmem]
  show (if isEntryValid ttl now e = true then some e else none) = none
  rw [hval]
  simp

/-- C3, witness: an entry of age exactly `ttl` is reported absent while
still stored. -/
theorem C3_ttl_expiry_witness :
    getCachedValue 5 5 [("A", ⟨"7", 0, none⟩)] "A" = none ∧
    mapGet [("A", ⟨"7", 0, none⟩)] "A" = some ⟨"7", 0, none⟩ :=
  C3_ttl_expiry 5 5 [("A", ⟨"7", 0, none⟩)] "A" ⟨"7", 0, none⟩
    (by decide) (by decide)

/-- C6: after the sweep, the store contains exactly the entries with
`now - timestamp < ttl`; no valid entry is removed. -/
theorem C6_sweep_exact (ttl now : Nat) (m : Cache) (k : String)
    (e : CachedRedeemableCapital) :
    (k, e) ∈ cleanExpiredEntries ttl now m ↔
      (k, e) ∈ m ∧ (now : Int) - (e.timestamp : Int) < (ttl : Int) := by
  unfold cleanExpiredEntries
  rw [List.mem_filter]
  unfold isEntryValid
  simp

/-- C7: when no entry has expired, the periodic sweep publishes no state
update — the updater returns the previous map unchanged (the `false` flag
records that no new map object was produced, so no downstream refresh
signal fires). -/
theorem C7_sweep_noop (ttl now : Nat) (m : Cache)
    (h : ∀ p ∈ m, (now : Int) - (p.2.timestamp : Int) < (ttl : Int)) :
    cleanupTick ttl now m = (false, m) := by
  unfold cleanupTick
  have hany : (m.any fun p => !(isEntryValid ttl now p.2)) = false := by
    rw [List.any_eq_false]
    intro p hp
    have hv := h p hp
    simp [isEntryValid, hv]
  rw [hany]
  simp

/-- C7, witness: a fresh singleton store is left untouched and unpublished. -/
theorem C7_sweep_noop_witness :
    cleanupTick 100 20 [("A", ⟨"1", 10, none⟩)] = (false, [("A", ⟨"1", 10, none⟩)]) :=
  C7_sweep_noop 100 20 [("A", ⟨"1", 10, none⟩)] (by decide)

/-! ## Deduplication lemmas -/

theorem mem_assetsNeedingFetch (ttl now : Nat) (assets : List String)
    (s : ProviderState) (k : String) :
    k ∈ assetsNeedingFetch ttl now assets s ↔
      k ∈ assets ∧ hasCachedValueB ttl now s.cacheApplied k = false ∧
        s.inflight.contains k = false := by
  unfold assetsNeedingFetch
  rw [List.mem_filter]
  simp

theorem fetchStart_cacheApplied (ttl now : Nat) (assets : List String)
    (s : ProviderState) :
    (fetchStart ttl now assets s).cacheApplied = s.cacheApplied := by
  unfold fetchStart
  by_cases h : (assetsNeedingFetch ttl now assets s).isEmpty = true <;> simp [h]

theorem fetchStart_pendingCache (ttl now : Nat) (assets : List String)
    (s : ProviderState) :
    (fetchStart ttl now assets s).pendingCache = s.pendingCache := by
  unfold fetchStart
  by_cases h : (assetsNeedingFetch ttl now assets s).isEmpty = true <;> simp [h]

theorem fetchStart_calls (ttl now : Nat) (assets : List String)
    (s : ProviderState) :
    (fetchStart ttl now assets s).calls =
      if (assetsNeedingFetch ttl now assets s).isEmpty then s.calls
      else s.calls ++ [assetsNeedingFetch ttl now assets s] := by
  unfold fetchStart
  by_cases h : (assetsNeedingFetch ttl now assets s).isEmpty = true <;> simp [h]

theorem mem_addInflight (ids : List String) :
    ∀ (l : List String) (k : String),
      (k ∈ ids.foldl (fun l id => if l.contains id then l else l ++ [id]) l) ↔
        k ∈ l ∨ k ∈ ids := by
  induction ids with
  | nil => intro l k; simp
  | cons id rest ih =>
    intro l k
    rw [List.foldl_cons]
    by_cases h : l.contains id = true
    · rw [if_pos h, ih]
      have hidl : id ∈ l := by simpa using h
      constructor
      · rintro (h1 | h2)
        · exact Or.inl h1
        · exact Or.inr (List.mem_cons_of_mem id h2)
      · rintro (h1 | h2)
        · exact Or.inl h1
        · rcases List.mem_cons.mp h2 with h3 | h4
          · subst h3; exact Or.inl hidl
          · exact Or.inr h4
    · rw [if_neg h, ih]
      simp [List.mem_append, or_assoc]

theorem fetchStart_inflight_mem (ttl now : Nat) (assets : List String)
    (s : ProviderState) (k : String) :
    k ∈ (fetchStart ttl now assets s).inflight ↔
      k ∈ s.inflight ∨ k ∈ assetsNeedingFetch ttl now assets s := by
  unfold fetchStart
  by_cases h : (assetsNeedingFetch ttl now assets s).isEmpty = true
  · rw [if_pos h]
    have hnil : assetsNeedingFetch ttl now assets s = [] := by simpa using h
    simp [hnil]
  · rw [if_neg h]
    exact mem_addInflight (assetsNeedingFetch ttl now assets s) s.inflight k

theorem numCalls_append (s t : ProviderState) (b : List String)
    (h : t.calls = s.calls ++ [b]) (k : String) :
    numCalls t k = numCalls s k + (if b.contains k = true then 1 else 0) := by
  unfold numCalls
  rw [h, List.filter_append, List.length_append]
  by_cases hb : b.contains k = true
  · have hkb : k ∈ b := by simpa using hb
    simp [hb, hkb, List.filter]
  · have hkb : ¬ k ∈ b := by simpa using hb
    simp [hb, hkb, List.filter]

theorem numCalls_congr (s t : ProviderState) (h : t.calls = s.calls) (k : String) :
    numCalls t k = numCalls s k := by
  unfold numCalls
  rw [h]

/-- C2: two back-to-back `fetchClaimableCapital` calls with overlapping key
sets and no settled fetch in between issue the underlying batched fetch
exactly once per key.  The second call never issues a batch containing a
key already in flight; every issued batch holds only keys neither cached
nor in flight at its start; and each requested key that was initially
uncached and not in flight occurs in exactly one more issued batch
afterwards (one if requested, zero otherwise). -/
theorem C2_dedup (ttl now : Nat) (keys1 keys2 : List String)
    (s0 s1 s2 : ProviderState)
    (h1 : s1 = fetchStart ttl now keys1 s0)
    (h2 : s2 = fetchStart ttl now keys2 s1) :
    (∀ k, k ∈ s1.inflight → numCalls s2 k = numCalls s1 k) ∧
    (s2.calls = s1.calls ∨ ∃ b, s2.calls = s1.calls ++ [b] ∧
      ∀ k ∈ b, hasCachedValueB ttl now s1.cacheApplied k = false ∧
        s1.inflight.contains k = false) ∧
    (∀ k, hasCachedValueB ttl now s0.cacheApplied k = false →
      s0.inflight.contains k = false →
      numCalls s2 k = numCalls s0 k + (if k ∈ keys1 ∨ k ∈ keys2 then 1 else 0)) := by
  have hca1 : s1.cacheApplied = s0.cacheApplied := by
    rw [h1]; exact fetchStart_cacheApplied ttl now keys1 s0
  have hcalls1 : s1.calls =
      if (assetsNeedingFetch ttl now keys1 s0).isEmpty then s0.calls
      else s0.calls ++ [assetsNeedingFetch ttl now keys1 s0] := by
    rw [h1]; exact fetchStart_calls ttl now keys1 s0
  have hcalls2 : s2.calls =
      if (assetsNeedingFetch ttl now keys2 s1).isEmpty then s1.calls
      else s1.calls ++ [assetsNeedingFetch ttl now keys2 s1] := by
    rw [h2]; exact fetchStart_calls ttl now keys2 s1
  have hinf1 : ∀ k, k ∈ s1.inflight ↔
      k ∈ s0.inflight ∨ k ∈ assetsNeedingFetch ttl now keys1 s0 := by
    intro k
    rw [h1]
    exact fetchStart_inflight_mem ttl now keys1 s0 k
  have hA : ∀ k, k ∈ s1.inflight → numCalls s2 k = numCalls s1 k := by
    intro k hk
    by_cases hb2 : (assetsNeedingFetch ttl now keys2 s1).isEmpty = true
    · apply numCalls_congr
      rw [hcalls2, if_pos hb2]
    · have hc2 : s2.calls = s1.calls ++ [assetsNeedingFetch ttl now keys2 s1] := by
        rw [hcalls2, if_neg hb2]
      rw [numCalls_append s1 s2 _ hc2 k]
      have hnotin : k ∉ assetsNeedingFetch ttl now keys2 s1 := by
        intro hkb
        have hspec := (mem_assetsNeedingFetch ttl now keys2 s1 k).mp hkb
        have hkc : s1.inflight.contains k = true := by simpa using hk
        rw [hspec.2.2] at hkc
        exact Bool.false_ne_true hkc
      have hcont : (assetsNeedingFetch ttl now keys2 s1).contains k = false := by
        simpa using hnotin
      rw [hcont]
      simp
  refine ⟨hA, ?_, ?_⟩
  · by_cases hb2 : (assetsNeedingFetch ttl now keys2 s1).isEmpty = true
    · left
      rw [hcalls2, if_pos hb2]
    · right
      refine ⟨assetsNeedingFetch ttl now keys2 s1, by rw [hcalls2, if_neg hb2], ?_⟩
      intro k hkb
      exact ((mem_assetsNeedingFetch ttl now keys2 s1 k).mp hkb).2
  · intro k hc hi
    by_cases hk1 : k ∈ keys1
    · have hkb1 : k ∈ assetsNeedingFetch ttl now keys1 s0 :=
        (mem_assetsNeedingFetch ttl now keys1 s0 k).mpr ⟨hk1, hc, hi⟩
      have hb1ne : (assetsNeedingFetch ttl now keys1 s0).isEmpty = false := by
        have : assetsNeedingFetch ttl now keys1 s0 ≠ [] := List.ne_nil_of_mem hkb1
        simpa using this
      have hc1 : s1.calls = s0.calls ++ [assetsNeedingFetch ttl now keys1 s0] := by
        rw [hcalls1, if_neg (by simp [hb1ne])]
      have hin1 : k ∈ s1.inflight := (hinf1 k).mpr (Or.inr hkb1)
      have hcont1 : (assetsNeedingFetch ttl now keys1 s0).contains k = true := by
        simpa using hkb1
      rw [hA k hin1, numCalls_append s0 s1 _ hc1 k, hcont1, if_pos (Or.inl hk1)]
      simp
    · have hnb1 : k ∉ assetsNeedingFetch ttl now keys1 s0 := by
        intro hkb
        exact hk1 ((mem_assetsNeedingFetch ttl now keys1 s0 k).mp hkb).1
      have hs1k : numCalls s1 k = numCalls s0 k := by
        by_cases hb1 : (assetsNeedingFetch ttl now keys1 s0).isEmpty = true
        · apply numCalls_congr
          rw [hcalls1, if_pos hb1]
        · have hc1 : s1.calls = s0.calls ++ [assetsNeedingFetch ttl now keys1 s0] := by
            rw [hcalls1, if_neg hb1]
          rw [numCalls_append s0 s1 _ hc1 k,
            show (assetsNeedingFetch ttl now keys1 s0).contains k = false by simpa using hnb1]
          simp
      have hni1 : k ∉ s1.inflight := by
        intro hin
        rcases (hinf1 k).mp hin with hin0 | hinb
        · have : s0.inflight.contains k = true := by simpa using hin0
          rw [hi] at this
          exact Bool.false_ne_true this
        · exact hnb1 hinb
      by_cases hk2 : k ∈ keys2
      · have hic1 : s1.inflight.contains k = false := by simpa using hni1
        have hccA : hasCachedValueB ttl now s1.cacheApplied k = false := by
          rw [hca1]; exact hc
        have hkb2 : k ∈ assetsNeedingFetch ttl now keys2 s1 :=
          (mem_assetsNeedingFetch ttl now keys2 s1 k).mpr ⟨hk2, hccA, hic1⟩
        have hb2ne : ¬ (assetsNeedingFetch ttl now keys2 s1).isEmpty = true := by
          have : assetsNeedingFetch ttl now keys2 s1 ≠ [] := List.ne_nil_of_mem hkb2
          simpa using this
        have hc2 : s2.calls = s1.calls ++ [assetsNeedingFetch ttl now keys2 s1] := by
          rw [hcalls2, if_neg hb2ne]
        rw [numCalls_append s1 s2 _ hc2 k,
          show (assetsNeedingFetch ttl now keys2 s1).contains k = true by simpa using hkb2,
          hs1k, if_pos (Or.inr hk2)]
        simp
      · have hnb2 : k ∉ assetsNeedingFetch ttl now keys2 s1 := by
          intro hkb
          exact hk2 ((mem_assetsNeedingFetch ttl now keys2 s1 k).mp hkb).1
        have hs2k : numCalls s2 k = numCalls s1 k := by
          by_cases hb2 : (assetsNeedingFetch ttl now keys2 s1).isEmpty = true
          · apply numCalls_congr
            rw [hcalls2, if_pos hb2]
          · have hc2 : s2.calls = s1.calls ++ [assetsNeedingFetch ttl now keys2 s1] := by
              rw [hcalls2, if_neg hb2]
            rw [numCalls_append s1 s2 _ hc2 k,
              show (assetsNeedingFetch ttl now keys2 s1).contains k = false by
                simpa using hnb2]
            simp
        rw [hs2k, hs1k, if_neg (by tauto)]
        simp

/-- C2, witness: requesting `"A","B"` then immediately `"B","C"` on an
empty store yields one batch containing `"B"` in total. -/
theorem C2_dedup_witness :
    numCalls (fetchStart 300000 10 ["B", "C"]
      (fetchStart 300000 10 ["A", "B"] ⟨[], [], [], [], [], []⟩)) "B" =
      numCalls (⟨[], [], [], [], [], []⟩ : ProviderState) "B" +
        (if "B" ∈ ["A", "B"] ∨ "B" ∈ ["B", "C"] then 1 else 0) :=
  (C2_dedup 300000 10 ["A", "B"] ["B", "C"] ⟨[], [], [], [], [], []⟩
    (fetchStart 300000 10 ["A", "B"] ⟨[], [], [], [], [], []⟩)
    (fetchStart 300000 10 ["B", "C"]
      (fetchStart 300000 10 ["A", "B"] ⟨[], [], [], [], [], []⟩))
    rfl rfl).2.2 "B" (by decide) (by decide)

/-! ## Failure-normalization lemmas -/

theorem setCachedValue_preserves (maxSize now : Nat) (m : Cache) (k2 v : String)
    (err : Option String) (k : String) (e : CachedRedeemableCapital)
    (hnd : nodupKeys m) (hget : mapGet m k = some e) (hts : now ≤ e.timestamp)
    (hne : k ≠ k2) :
    mapGet (setCachedValue maxSize now m k2 v err) k = some e := by
  unfold setCachedValue
  rw [mapGet_mapSet_ne _ _ _ _ hne]
  rcases evictIfFull_cases maxSize now m with he | ⟨q, hqm, hqt, he⟩
  · rw [he]
    exact hget
  · rw [he]
    by_cases hqk : k = q.1
    · exfalso
      have hq2 : (q.1, q.2) ∈ m := by simpa using hqm
      have hqget : mapGet m q.1 = some q.2 := mapGet_of_mem m q.1 q.2 hnd hq2
      rw [← hqk, hget] at hqget
      have he2 : e = q.2 := by simpa using hqget
      rw [he2] at hts
      omega
    · rw [mapGet_mapDelete_ne m q.1 k hqk]
      exact hget

theorem preserve_failure_run (maxSize now : Nat) :
    ∀ (ids : List String) (m : Cache) (k : String) (e : CachedRedeemableCapital),
      nodupKeys m → mapGet m k = some e → now ≤ e.timestamp → k ∉ ids →
      mapGet (runSets maxSize
        (ids.map fun i => ⟨i, "0", some "Failed to load", now⟩) m) k = some e := by
  intro ids
  induction ids with
  | nil =>
    intro m k e hnd hget hts hk
    simpa [runSets] using hget
  | cons i rest ih =>
    intro m k e hnd hget hts hk
    have hki : k ≠ i := fun hh => hk (hh ▸ List.mem_cons_self i rest)
    have hkrest : k ∉ rest := fun hh => hk (List.mem_cons_of_mem i hh)
    simp only [List.map_cons, runSets, List.foldl_cons]
    have hstep := setCachedValue_preserves maxSize now m i "0"
      (some "Failed to load") k e hnd hget hts hki
    have hnd2 := nodupKeys_setCachedValue maxSize now m i "0" (some "Failed to load") hnd
    simpa [runSets] using
      ih (setCachedValue maxSize now m i "0" (some "Failed to load"))
        k e hnd2 hstep hts hkrest

theorem failure_run_mapGet (maxSize now : Nat) :
    ∀ (ids : List String) (m : Cache), nodupKeys m →
      ∀ k ∈ ids,
        mapGet (runSets maxSize
          (ids.map fun i => ⟨i, "0", some "Failed to load", now⟩) m) k =
          some ⟨"0", now, some "Failed to load"⟩ := by
  intro ids
  induction ids with
  | nil =>
    intro m hnd k hk
    simp at hk
  | cons i rest ih =>
    intro m hnd k hk
    have hnd2 := nodupKeys_setCachedValue maxSize now m i "0" (some "Failed to load") hnd
    simp only [List.map_cons, runSets, List.foldl_cons]
    by_cases hkrest : k ∈ rest
    · simpa [runSets] using
        ih (setCachedValue maxSize now m i "0" (some "Failed to load")) hnd2 k hkrest
    · have hki : k = i := by
        rcases List.mem_cons.mp hk with h1 | h2
        · exact h1
        · exact absurd h2 hkrest
      subst hki
      have hget2 : mapGet (setCachedValue maxSize now m k "0" (some "Failed to load")) k =
          some ⟨"0", now, some "Failed to load"⟩ := by
        unfold setCachedValue
        exact mapGet_mapSet_self _ k _
      simpa [runSets] using
        preserve_failure_run maxSize now rest
          (setCachedValue maxSize now m k "0" (some "Failed to load")) k
          ⟨"0", now, some "Failed to load"⟩ hnd2 hget2 (le_refl now) hkrest

theorem loading_contains_false_preserved (ids : List String) :
    ∀ (l : List String) (k : String),
      l.contains k = false →
      ((ids.map fun i => (i, false)).foldl applyLoading l).contains k = false := by
  induction ids with
  | nil =>
    intro l k h
    simpa using h
  | cons i rest ih =>
    intro l k h
    simp only [List.map_cons, List.foldl_cons]
    apply ih
    have hk : k ∉ l := by simpa using h
    have : k ∉ applyLoading l (i, false) := by
      unfold applyLoading
      simp only [Bool.false_eq_true, if_false]
      intro hmem
      exact hk (List.mem_filter.mp hmem).1
    simpa using this

theorem loading_cleared_run (ids : List String) :
    ∀ (l : List String) (k : String), k ∈ ids →
      ((ids.map fun i => (i, false)).foldl applyLoading l).contains k = false := by
  induction ids with
  | nil =>
    intro l k hk
    simp at hk
  | cons i rest ih =>
    intro l k hk
    simp only [List.map_cons, List.foldl_cons]
    by_cases hkrest : k ∈ rest
    · exact ih (applyLoading l (i, false)) k hkrest
    · have hki : k = i := by
        rcases List.mem_cons.mp hk with h1 | h2
        · exact h1
        · exact absurd h2 hkrest
      subst hki
      apply loading_contains_false_preserved
      have hnot : k ∉ applyLoading l (k, false) := by
        unfold applyLoading
        simp only [Bool.false_eq_true, if_false]
        intro hmem
        have h2 := (List.mem_filter.mp hmem).2
        simp at h2
      simpa using hnot

theorem foldl_applyUpdate_setVals (maxSize now : Nat) (ids : List String) :
    ∀ c : Cache,
      (ids.map fun i => CacheUpdate.setVal i "0" (some "Failed to load") now).foldl
          (applyUpdate maxSize) c =
        runSets maxSize (ids.map fun i => ⟨i, "0", some "Failed to load", now⟩) c := by
  induction ids with
  | nil => intro c; simp [runSets]
  | cons i rest ih =>
    intro c
    simp only [List.map_cons, List.foldl_cons, runSets] at ih ⊢
    exact ih (setCachedValue maxSize now c i "0" (some "Failed to load"))

/-- C4, counterexample.  The claim states that after a rejected batch every
key of the need-fetch set holds a normalized failure entry.  With
`maxSize = 1` and the clock advancing one millisecond between the two
failure writes, the write for `"B"` evicts the just-written failure entry
for `"A"`, so `"A"` ends with no entry at all. -/
theorem C4_counterexample :
    mapGet (flushState 1 (fetchSettleTurn [("A", 10), ("B", 11)]
        (Except.error "network") ⟨[], [], [], [], [], []⟩)).cacheApplied "A" = none := by
  decide

/-- C4, amended.  If the batched fetch rejects and the failure-entry loop
runs within a single millisecond (all writes observe the same `Date.now()`),
then after the React flush every key of the need-fetch set holds the
normalized entry with value `"0"` and the non-empty error `"Failed to
load"`, and `isLoading` is `false` for all of them. -/
theorem C4_failure_normalization_amended (maxSize now : Nat) (ids : List String)
    (s : ProviderState) (emsg : String)
    (hnd : nodupKeys s.cacheApplied)
    (hpc : s.pendingCache = [])
    (hpl : s.pendingLoading = []) :
    (∀ k ∈ ids,
      mapGet (flushState maxSize (fetchSettleTurn (ids.map fun i => (i, now))
          (Except.error emsg) s)).cacheApplied k =
        some ⟨"0", now, some "Failed to load"⟩) ∧
    (∀ k ∈ ids,
      (flushState maxSize (fetchSettleTurn (ids.map fun i => (i, now))
          (Except.error emsg) s)).loadingApplied.contains k = false) ∧
    "Failed to load" ≠ "" := by
  have hcache :
      (flushState maxSize (fetchSettleTurn (ids.map fun i => (i, now))
        (Except.error emsg) s)).cacheApplied =
      runSets maxSize (ids.map fun i => ⟨i, "0", some "Failed to load", now⟩)
        s.cacheApplied := by
    simp only [fetchSettleTurn, flushState, hpc, List.nil_append, List.map_map]
    rw [show ((fun (it : String × Nat) =>
        CacheUpdate.setVal it.1 "0" (some "Failed to load") it.2) ∘ fun i => (i, now)) =
        (fun i => CacheUpdate.setVal i "0" (some "Failed to load") now) from rfl]
    exact foldl_applyUpdate_setVals maxSize now ids s.cacheApplied
  have hloading :
      (flushState maxSize (fetchSettleTurn (ids.map fun i => (i, now))
        (Except.error emsg) s)).loadingApplied =
      ((ids.map fun i => (i, false)).foldl applyLoading s.loadingApplied) := by
    simp only [fetchSettleTurn, flushState, hpl, List.nil_append, List.map_map]
    rfl
  refine ⟨?_, ?_, by decide⟩
  · intro k hk
    rw [hcache]
    exact failure_run_mapGet maxSize now ids s.cacheApplied hnd k hk
  · intro k hk
    rw [hloading]
    exact loading_cleared_run ids s.loadingApplied k hk

/-- C4, witness: two keys failing in the same millisecond on a
`maxSize = 1` store both end cached as `"0"`/error with loading cleared. -/
theorem C4_failure_normalization_amended_witness :
    (∀ k ∈ ["A", "B"],
      mapGet (flushState 1 (fetchSettleTurn (["A", "B"].map fun i => (i, 10))
          (Except.error "network") ⟨[], [], ["A", "B"], [], [], []⟩)).cacheApplied k =
        some ⟨"0", 10, some "Failed to load"⟩) ∧
    (∀ k ∈ ["A", "B"],
      (flushState 1 (fetchSettleTurn (["A", "B"].map fun i => (i, 10))
          (Except.error "network") ⟨[], [], ["A", "B"], [], [], []⟩)).loadingApplied.contains k
        = false) ∧
    "Failed to load" ≠ "" :=
  C4_failure_normalization_amended 1 10 ["A", "B"]
    ⟨[], [], ["A", "B"], [], [], []⟩ "network" (by decide) rfl rfl

/-- C5: clearing a key while its fetch is in flight does not touch the
in-flight registration, and when the fetch later resolves its result is
unconditionally written back, so the resolved value is readable again. -/
theorem C5_clear_then_late_resolve (ttl maxSize now tl : Nat) (k v : String)
    (s : ProviderState) (httl : 0 < ttl) (hpc : s.pendingCache = []) :
    (clearCacheEntryOp k s).inflight = s.inflight ∧
    getCachedValue ttl now
      (flushState maxSize (fetchSettleTurn [(k, tl)]
        (Except.ok [(⟨k, v, none⟩, now)])
        (flushState maxSize (clearCacheEntryOp k s)))).cacheApplied k =
      some ⟨v, now, none⟩ := by
  constructor
  · rfl
  · have hcache :
        (flushState maxSize (fetchSettleTurn [(k, tl)]
          (Except.ok [(⟨k, v, none⟩, now)])
          (flushState maxSize (clearCacheEntryOp k s)))).cacheApplied =
        setCachedValue maxSize now
          (mapDelete (s.pendingCache.foldl (applyUpdate maxSize) s.cacheApplied) k)
          k v none := by
      simp only [fetchSettleTurn, flushState, clearCacheEntryOp, List.nil_append,
        List.map_cons, List.map_nil, List.foldl_append, List.foldl_cons, List.foldl_nil]
      rfl
    rw [hcache, hpc]
    simp only [List.foldl_nil]
    have hget : mapGet (setCachedValue maxSize now (mapDelete s.cacheApplied k) k v none) k =
        some ⟨v, now, none⟩ := by
      unfold setCachedValue
      exact mapGet_mapSet_self _ k _
    unfold getCachedValue
    rw [hget]
    have hval : isEntryValid ttl now ⟨v, now, none⟩ = true := by
      unfold isEntryValid
      simp only [decide_eq_true_eq, sub_self]
      exact_mod_cast httl
    show (if isEntryValid ttl now ⟨v, now, none⟩ = true then
        some (⟨v, now, none⟩ : CachedRedeemableCapital) else none) =
      some ⟨v, now, none⟩
    rw [hval]
    simp

/-- C5, witness: clearing `"A"` mid-flight, then resolving with `"5"`,
leaves `get("A").value = "5"`. -/
theorem C5_clear_then_late_resolve_witness :
    (clearCacheEntryOp "A" (⟨[], [], [], [], ["A"], []⟩ : ProviderState)).inflight =
      (⟨[], [], [], [], ["A"], []⟩ : ProviderState).inflight ∧
    getCachedValue 300000 50
      (flushState 1000 (fetchSettleTurn [("A", 50)]
        (Except.ok [(⟨"A", "5", none⟩, 50)])
        (flushState 1000 (clearCacheEntryOp "A" ⟨[], [], [], [], ["A"], []⟩)))).cacheApplied
      "A" = some ⟨"5", 50, none⟩ :=
  C5_clear_then_late_resolve 300000 1000 50 50 "A" "5"
    ⟨[], [], [], [], ["A"], []⟩ (by decide) rfl

/-- C8: `fetchMissing` never rejects — for every outcome of the underlying
batched fetch, including rejection, the settling phase returns normally,
and a rejection is converted into queued normalized failure writes for
every key of the batch. -/
theorem C8_no_reject (idsTimes : List (String × Nat))
    (outcome : Except String (List (FetchResult × Nat))) (s : ProviderState) :
    (∃ s2, fetchMissingSettle idsTimes outcome s = Except.ok s2) ∧
    (∀ e, outcome = Except.error e →
      ∃ s2, fetchMissingSettle idsTimes outcome s = Except.ok s2 ∧
        s2.pendingCache = s.pendingCache ++ idsTimes.map
          (fun (it : String × Nat) =>
            CacheUpdate.setVal it.1 "0" (some "Failed to load") it.2)) := by
  constructor
  · exact ⟨fetchSettleTurn idsTimes outcome s, rfl⟩
  · intro e he
    subst he
    refine ⟨fetchSettleTurn idsTimes (Except.error e) s, rfl, ?_⟩
    simp [fetchSettleTurn]

/-- C8, witness: a concrete rejected batch settles normally with the
failure write queued. -/
theorem C8_no_reject_witness :
    ∃ s2, fetchMissingSettle [("A", 5)] (Except.error "boom")
        (⟨[], [], [], [], [], []⟩ : ProviderState) = Except.ok s2 ∧
      s2.pendingCache = (⟨[], [], [], [], [], []⟩ : ProviderState).pendingCache ++
        [("A", 5)].map (fun (it : String × Nat) =>
          CacheUpdate.setVal it.1 "0" (some "Failed to load") it.2) :=
  (C8_no_reject [("A", 5)] (Except.error "boom") ⟨[], [], [], [], [], []⟩).2 "boom" rfl

/-- C9: evaluation at the failing input.  `retryFailedFetches` queues the
cache clears as React state updates, but re-invokes the fetch in the same
synchronous turn; the fetch filter reads `cacheRef.current`, which still
holds the (valid) failure entry for `"B"`, so `needFetch` is empty and no
`fetchFn` call is issued — the clears are still pending. -/
theorem C9_retry_stale_eval :
    (retryFailedFetches 300000 101 ["B"] ["B"]
        ⟨[("B", ⟨"0", 100, some "Failed to load"⟩)], [], [], [], [], []⟩).calls = [] ∧
    (retryFailedFetches 300000 101 ["B"] ["B"]
        ⟨[("B", ⟨"0", 100, some "Failed to load"⟩)], [], [], [], [], []⟩).pendingCache =
      [CacheUpdate.clearEntry "B"] := by
  decide
